import Mathlib

/-!
Verification of `pyscript_3dapp_lib` (modules `utils.py` and `libthree.py`).

The code is glue between a browser host, the three.js scene-graph API and
file-format codecs.  Pure numeric data is embedded over `ℚ` (the Python side
uses IEEE floats, but every claim under study is about structural/ algebraic
behaviour that is exact, so exact arithmetic is the faithful reading of
"within floating-point tolerance").  Points are triples, point arrays are
lists of triples, flat buffers are lists of rationals, byte buffers are lists
of characters (for text formats) or opaque payloads (for the download path).

External collaborators (geomie3d, plyfile, the Python `csv` module, three.js
and the browser DOM) are not part of the repository; the definitions that
stand in for them are modelled from the spec and from the documented
behaviour of those libraries, and each such definition says so in its doc
comment.  Everything else is a direct transcription of the Python source.
-/

/-- A 3-d point, one row of an `(n,3)` array. -/
abbrev V3 : Type := ℚ × ℚ × ℚ

def v3add (a b : V3) : V3 := (a.1 + b.1, a.2.1 + b.2.1, a.2.2 + b.2.2)

def v3sub (a b : V3) : V3 := (a.1 - b.1, a.2.1 - b.2.1, a.2.2 - b.2.2)

def v3smul (c : ℚ) (a : V3) : V3 := (c * a.1, c * a.2.1, c * a.2.2)

def v3dot (a b : V3) : ℚ := a.1 * b.1 + a.2.1 * b.2.1 + a.2.2 * b.2.2

def v3cross (a b : V3) : V3 :=
  (a.2.1 * b.2.2 - a.2.2 * b.2.1,
   a.2.2 * b.1 - a.1 * b.2.2,
   a.1 * b.2.1 - a.2.1 * b.1)

/-- Modelled from the spec: `geomie3d.utility.CoordinateSystem(origin, xdir, ydir)`
(the geomie3d library is an external collaborator, "a geometry-math utility
providing bounding-box and coordinate-system transforms").  A coordinate
system is given by its origin and its x- and y-axis directions; the z-axis
is the cross product of the two. -/
structure CoordinateSystem where
  origin : V3
  xdir : V3
  ydir : V3

def CoordinateSystem.zdir (cs : CoordinateSystem) : V3 := v3cross cs.xdir cs.ydir

/-- The world point whose coordinates in `cs` are `p`. -/
def worldPt (cs : CoordinateSystem) (p : V3) : V3 :=
  v3add cs.origin
    (v3add (v3smul p.1 cs.xdir) (v3add (v3smul p.2.1 cs.ydir) (v3smul p.2.2 cs.zdir)))

/-- The coordinates of world point `w` in the (orthonormal) system `cs`. -/
def csCoords (cs : CoordinateSystem) (w : V3) : V3 :=
  (v3dot (v3sub w cs.origin) cs.xdir,
   v3dot (v3sub w cs.origin) cs.ydir,
   v3dot (v3sub w cs.origin) cs.zdir)

/-- Modelled from the spec: `geomie3d.calculate.cs2cs_matrice(orig_cs, dest_cs)`,
the change-of-basis transform taking coordinates in `orig` to coordinates in
`dest` ("applies a fixed change-of-basis"); we represent the matrix by the
map it induces on points. -/
def cs2cs_matrice (orig dest : CoordinateSystem) : V3 → V3 :=
  fun p => csCoords dest (worldPt orig p)

/-- Modelled from the spec: `geomie3d.calculate.trsf_xyzs(xyzs, trsf_mat)`,
applying a transform to every row of an `(n,3)` array. -/
def trsf_xyzs (xyzs : List V3) (trsf_mat : V3 → V3) : List V3 :=
  xyzs.map trsf_mat

/-- The original coordinate system built in `convertxyz2zxy`:
origin `[0,0,0]`, x-axis `[1,0,0]`, y-axis `[0,1,0]`. -/
def orig_cs : CoordinateSystem := ⟨(0, 0, 0), (1, 0, 0), (0, 1, 0)⟩

/-- The destination coordinate system built in `convertxyz2zxy`:
origin `[0,0,0]`, x-axis `[0,0,1]`, y-axis `[1,0,0]`. -/
def dest_cs : CoordinateSystem := ⟨(0, 0, 0), (0, 0, 1), (1, 0, 0)⟩

/-- `utils.convertxyz2zxy`: build the two coordinate systems, compute the
cs-to-cs matrix and apply it to every row. -/
def convertxyz2zxy (xyzs : List V3) : List V3 :=
  trsf_xyzs xyzs (cs2cs_matrice orig_cs dest_cs)

/-- Modelled from the spec: the inverse conversion (new-basis → old-basis
map) referred to by the round-trip property; it is the same cs-to-cs
transform with source and destination systems exchanged. -/
def convertzxy2xyz (xyzs : List V3) : List V3 :=
  trsf_xyzs xyzs (cs2cs_matrice dest_cs orig_cs)

/-- Modelled from the spec: `bbox.bbox_arr` of geomie3d, the array
`[minx, miny, minz, maxx, maxy, maxz]` of the axis-aligned bounding box;
we name the six entries. -/
structure BBox where
  minx : ℚ
  miny : ℚ
  minz : ℚ
  maxx : ℚ
  maxy : ℚ
  maxz : ℚ

/-- Modelled from the spec: `geomie3d.calculate.bbox_frm_xyzs(xyzs)`,
the axis-aligned bounding box of a point array (componentwise min and max);
geomie3d's numpy reduction fails on an empty array, hence `Option`. -/
def bbox_frm_xyzs : List V3 → Option BBox
  | [] => none
  | p :: ps =>
      some
        { minx := ps.foldl (fun m q => min m q.1) p.1
          miny := ps.foldl (fun m q => min m q.2.1) p.2.1
          minz := ps.foldl (fun m q => min m q.2.2) p.2.2
          maxx := ps.foldl (fun m q => max m q.1) p.1
          maxy := ps.foldl (fun m q => max m q.2.1) p.2.1
          maxz := ps.foldl (fun m q => max m q.2.2) p.2.2 }

/-- Modelled from the spec: `geomie3d.calculate.bboxes_centre([bbox])[0]`,
the centre (centroid) of the box. -/
def bboxes_centre (bb : BBox) : V3 :=
  ((bb.minx + bb.maxx) / 2, (bb.miny + bb.maxy) / 2, (bb.minz + bb.maxz) / 2)

/-- `utils.get_cam_place_from_xyzs`: bounding box of the points, camera
position at the max corner plus `zoom_out_val` on each axis, look-at point at
the box centre.  `none` exactly when the bbox computation fails (empty
input). -/
def get_cam_place_from_xyzs (xyzs : List V3) (zoom_out_val : ℚ) : Option (V3 × V3) :=
  (bbox_frm_xyzs xyzs).map fun bbox =>
    ((bbox.maxx + zoom_out_val, bbox.maxy + zoom_out_val, bbox.maxz + zoom_out_val),
     bboxes_centre bbox)

/-- The axis-aligned-bounding-box specification: each coordinate of `mn` and
`mx` is attained by some point of `xyzs`, and they bound every point. -/
def isAABB (mn mx : V3) (xyzs : List V3) : Prop :=
  (∃ q ∈ xyzs, q.1 = mn.1) ∧ (∃ q ∈ xyzs, q.2.1 = mn.2.1) ∧ (∃ q ∈ xyzs, q.2.2 = mn.2.2) ∧
  (∃ q ∈ xyzs, q.1 = mx.1) ∧ (∃ q ∈ xyzs, q.2.1 = mx.2.1) ∧ (∃ q ∈ xyzs, q.2.2 = mx.2.2) ∧
  (∀ q ∈ xyzs, mn.1 ≤ q.1 ∧ mn.2.1 ≤ q.2.1 ∧ mn.2.2 ≤ q.2.2 ∧
               q.1 ≤ mx.1 ∧ q.2.1 ≤ mx.2.1 ∧ q.2.2 ≤ mx.2.2)

lemma cs2cs_xyz_zxy (p : V3) :
    cs2cs_matrice orig_cs dest_cs p = (p.2.2, p.1, p.2.1) := by
  obtain ⟨x, y, z⟩ := p
  simp [cs2cs_matrice, csCoords, worldPt, v3add, v3sub, v3smul, v3dot, v3cross,
    CoordinateSystem.zdir, orig_cs, dest_cs]

lemma cs2cs_zxy_xyz (p : V3) :
    cs2cs_matrice dest_cs orig_cs p = (p.2.1, p.2.2, p.1) := by
  obtain ⟨x, y, z⟩ := p
  simp [cs2cs_matrice, csCoords, worldPt, v3add, v3sub, v3smul, v3dot, v3cross,
    CoordinateSystem.zdir, orig_cs, dest_cs]

/-- C1: `convertxyz2zxy` maps each row `(x,y,z)` of an `(n,3)` array to
`(z,x,y)` (new-x = old-z, new-y = old-x, new-z = old-y), and it is
deterministic: equal input arrays give equal output arrays. -/
theorem C1_convertxyz2zxy_rows :
    (∀ xyzs : List V3,
        convertxyz2zxy xyzs = xyzs.map (fun p => (p.2.2, p.1, p.2.1))) ∧
    (∀ xyzs xyzs2 : List V3, xyzs = xyzs2 → convertxyz2zxy xyzs = convertxyz2zxy xyzs2) := by
  constructor
  · intro xyzs
    unfold convertxyz2zxy trsf_xyzs
    exact List.map_congr_left fun p _ => cs2cs_xyz_zxy p
  · intro xyzs xyzs2 h
    rw [h]

lemma convert_round_left (xyzs : List V3) :
    convertzxy2xyz (convertxyz2zxy xyzs) = xyzs := by
  unfold convertxyz2zxy convertzxy2xyz trsf_xyzs
  rw [List.map_map]
  have : ∀ p ∈ xyzs, (cs2cs_matrice dest_cs orig_cs ∘ cs2cs_matrice orig_cs dest_cs) p = p := by
    intro p _
    simp [Function.comp, cs2cs_xyz_zxy, cs2cs_zxy_xyz]
  rw [List.map_congr_left this]
  exact List.map_id xyzs

lemma convert_round_right (xyzs : List V3) :
    convertxyz2zxy (convertzxy2xyz xyzs) = xyzs := by
  unfold convertxyz2zxy convertzxy2xyz trsf_xyzs
  rw [List.map_map]
  have : ∀ p ∈ xyzs, (cs2cs_matrice orig_cs dest_cs ∘ cs2cs_matrice dest_cs orig_cs) p = p := by
    intro p _
    simp [Function.comp, cs2cs_xyz_zxy, cs2cs_zxy_xyz]
  rw [List.map_congr_left this]
  exact List.map_id xyzs

/-- C2: the coordinate conversion is a bijective linear map: converting and
then applying the inverse (new-basis → old-basis) conversion returns the
original array — exactly, hence within floating-point tolerance — for every
`(n,3)` input; moreover the per-row transform is additive and homogeneous. -/
theorem C2_convert_bijective :
    (∀ xyzs : List V3, convertzxy2xyz (convertxyz2zxy xyzs) = xyzs) ∧
    (∀ xyzs : List V3, convertxyz2zxy (convertzxy2xyz xyzs) = xyzs) ∧
    Function.Bijective convertxyz2zxy ∧
    (∀ a b : V3, cs2cs_matrice orig_cs dest_cs (v3add a b) =
        v3add (cs2cs_matrice orig_cs dest_cs a) (cs2cs_matrice orig_cs dest_cs b)) ∧
    (∀ (c : ℚ) (a : V3), cs2cs_matrice orig_cs dest_cs (v3smul c a) =
        v3smul c (cs2cs_matrice orig_cs dest_cs a)) := by
  refine ⟨convert_round_left, convert_round_right, ?_, ?_, ?_⟩
  · exact Function.bijective_iff_has_inverse.mpr
      ⟨convertzxy2xyz, convert_round_left, convert_round_right⟩
  · intro a b
    simp [cs2cs_xyz_zxy, v3add]
  · intro c a
    simp [cs2cs_xyz_zxy, v3smul]

lemma le_foldl_max (g : V3 → ℚ) :
    ∀ (l : List V3) (a : ℚ), a ≤ l.foldl (fun m r => max m (g r)) a := by
  intro l
  induction l with
  | nil => intro a; simp
  | cons p ps ih =>
      intro a
      exact le_trans (le_max_left a (g p)) (ih (max a (g p)))

lemma foldl_max_ub (g : V3 → ℚ) :
    ∀ (l : List V3) (a : ℚ) (q : V3), q ∈ l → g q ≤ l.foldl (fun m r => max m (g r)) a := by
  intro l
  induction l with
  | nil => intro a q hq; simp at hq
  | cons p ps ih =>
      intro a q hq
      rcases List.mem_cons.mp hq with h | h
      · subst h
        exact le_trans (le_max_right a (g q)) (le_foldl_max g ps (max a (g q)))
      · exact ih (max a (g p)) q h

lemma foldl_max_mem (g : V3 → ℚ) :
    ∀ (l : List V3) (a : ℚ),
      l.foldl (fun m r => max m (g r)) a = a ∨
        ∃ q ∈ l, l.foldl (fun m r => max m (g r)) a = g q := by
  intro l
  induction l with
  | nil => intro a; left; rfl
  | cons p ps ih =>
      intro a
      rcases ih (max a (g p)) with h | ⟨q, hq, hqe⟩
      · rcases max_choice a (g p) with hm | hm
        · left
          simpa [hm] using h
        · right
          exact ⟨p, List.mem_cons_self p ps, by simpa [hm] using h⟩
      · right
        exact ⟨q, List.mem_cons_of_mem p hq, hqe⟩

lemma foldl_min_le (g : V3 → ℚ) :
    ∀ (l : List V3) (a : ℚ), l.foldl (fun m r => min m (g r)) a ≤ a := by
  intro l
  induction l with
  | nil => intro a; simp
  | cons p ps ih =>
      intro a
      exact le_trans (ih (min a (g p))) (min_le_left a (g p))

lemma foldl_min_lb (g : V3 → ℚ) :
    ∀ (l : List V3) (a : ℚ) (q : V3), q ∈ l → l.foldl (fun m r => min m (g r)) a ≤ g q := by
  intro l
  induction l with
  | nil => intro a q hq; simp at hq
  | cons p ps ih =>
      intro a q hq
      rcases List.mem_cons.mp hq with h | h
      · subst h
        exact le_trans (foldl_min_le g ps (min a (g q))) (min_le_right a (g q))
      · exact ih (min a (g p)) q h

lemma foldl_min_mem (g : V3 → ℚ) :
    ∀ (l : List V3) (a : ℚ),
      l.foldl (fun m r => min m (g r)) a = a ∨
        ∃ q ∈ l, l.foldl (fun m r => min m (g r)) a = g q := by
  intro l
  induction l with
  | nil => intro a; left; rfl
  | cons p ps ih =>
      intro a
      rcases ih (min a (g p)) with h | ⟨q, hq, hqe⟩
      · rcases min_choice a (g p) with hm | hm
        · left
          simpa [hm] using h
        · right
          exact ⟨p, List.mem_cons_self p ps, by simpa [hm] using h⟩
      · right
        exact ⟨q, List.mem_cons_of_mem p hq, hqe⟩

lemma foldl_max_replicate (g : V3 → ℚ) (p : V3) :
    ∀ n : ℕ, (List.replicate n p).foldl (fun m r => max m (g r)) (g p) = g p := by
  intro n
  induction n with
  | zero => rfl
  | succ k ih => simpa [List.replicate_succ] using ih

lemma foldl_min_replicate (g : V3 → ℚ) (p : V3) :
    ∀ n : ℕ, (List.replicate n p).foldl (fun m r => min m (g r)) (g p) = g p := by
  intro n
  induction n with
  | zero => rfl
  | succ k ih => simpa [List.replicate_succ] using ih

/-- C3: on a non-empty point array, `get_cam_place_from_xyzs` returns exactly
two 3-vectors: the camera position, equal to the max corner of the
axis-aligned bounding box plus the offset on every axis, and the look-at
target, equal to the box's centroid; in particular for an input consisting of
a single repeated point `p` and offset `0` both vectors equal `p`. -/
theorem C3_get_cam_place_spec :
    (∀ (p0 : V3) (ps : List V3) (z : ℚ), ∃ mn mx : V3,
        isAABB mn mx (p0 :: ps) ∧
        get_cam_place_from_xyzs (p0 :: ps) z =
          some ((mx.1 + z, mx.2.1 + z, mx.2.2 + z),
                ((mn.1 + mx.1) / 2, (mn.2.1 + mx.2.1) / 2, (mn.2.2 + mx.2.2) / 2))) ∧
    (∀ (p : V3) (n : ℕ),
        get_cam_place_from_xyzs (List.replicate (n + 1) p) 0 = some (p, p)) := by
  constructor
  · intro p0 ps z
    refine ⟨(ps.foldl (fun m q => min m q.1) p0.1,
             ps.foldl (fun m q => min m q.2.1) p0.2.1,
             ps.foldl (fun m q => min m q.2.2) p0.2.2),
            (ps.foldl (fun m q => max m q.1) p0.1,
             ps.foldl (fun m q => max m q.2.1) p0.2.1,
             ps.foldl (fun m q => max m q.2.2) p0.2.2), ?_, ?_⟩
    · refine ⟨?_, ?_, ?_, ?_, ?_, ?_, ?_⟩
      · rcases foldl_min_mem (fun q => q.1) ps p0.1 with h | ⟨q, hq, hqe⟩
        · exact ⟨p0, List.mem_cons_self p0 ps, h.symm⟩
        · exact ⟨q, List.mem_cons_of_mem p0 hq, hqe.symm⟩
      · rcases foldl_min_mem (fun q => q.2.1) ps p0.2.1 with h | ⟨q, hq, hqe⟩
        · exact ⟨p0, List.mem_cons_self p0 ps, h.symm⟩
        · exact ⟨q, List.mem_cons_of_mem p0 hq, hqe.symm⟩
      · rcases foldl_min_mem (fun q => q.2.2) ps p0.2.2 with h | ⟨q, hq, hqe⟩
        · exact ⟨p0, List.mem_cons_self p0 ps, h.symm⟩
        · exact ⟨q, List.mem_cons_of_mem p0 hq, hqe.symm⟩
      · rcases foldl_max_mem (fun q => q.1) ps p0.1 with h | ⟨q, hq, hqe⟩
        · exact ⟨p0, List.mem_cons_self p0 ps, h.symm⟩
        · exact ⟨q, List.mem_cons_of_mem p0 hq, hqe.symm⟩
      · rcases foldl_max_mem (fun q => q.2.1) ps p0.2.1 with h | ⟨q, hq, hqe⟩
        · exact ⟨p0, List.mem_cons_self p0 ps, h.symm⟩
        · exact ⟨q, List.mem_cons_of_mem p0 hq, hqe.symm⟩
      · rcases foldl_max_mem (fun q => q.2.2) ps p0.2.2 with h | ⟨q, hq, hqe⟩
        · exact ⟨p0, List.mem_cons_self p0 ps, h.symm⟩
        · exact ⟨q, List.mem_cons_of_mem p0 hq, hqe.symm⟩
      · intro q hq
        rcases List.mem_cons.mp hq with h | h
        · subst h
          exact ⟨foldl_min_le _ ps _, foldl_min_le _ ps _, foldl_min_le _ ps _,
                 le_foldl_max _ ps _, le_foldl_max _ ps _, le_foldl_max _ ps _⟩
        · exact ⟨foldl_min_lb _ ps _ q h, foldl_min_lb _ ps _ q h, foldl_min_lb _ ps _ q h,
                 foldl_max_ub _ ps _ q h, foldl_max_ub _ ps _ q h, foldl_max_ub _ ps _ q h⟩
    · simp [get_cam_place_from_xyzs, bbox_frm_xyzs, bboxes_centre]
  · intro p n
    rw [List.replicate_succ]
    simp only [get_cam_place_from_xyzs, bbox_frm_xyzs, bboxes_centre,
      foldl_max_replicate (fun q => q.1) p n, foldl_min_replicate (fun q => q.1) p n,
      foldl_max_replicate (fun q => q.2.1) p n, foldl_min_replicate (fun q => q.2.1) p n,
      foldl_max_replicate (fun q => q.2.2) p n, foldl_min_replicate (fun q => q.2.2) p n,
      Option.map_some]
    refine congrArg some (Prod.ext ?_ ?_)
    · simp
    · obtain ⟨x, y, zz⟩ := p
      refine Prod.ext ?_ (Prod.ext ?_ ?_)
      · simp
      · simp
      · simp

/-- Modelled from the spec: a three.js `BufferAttribute(array, itemSize)`;
its `count` is the array length divided by the item size. -/
structure BufferAttribute where
  array : List ℚ
  itemSize : ℕ

def BufferAttribute.count (a : BufferAttribute) : ℕ := a.array.length / a.itemSize

/-- Modelled from the spec: a three.js `PointsMaterial`. -/
structure PointsMaterial where
  color : V3
  size : ℚ
  sizeAttenuation : Bool

/-- Modelled from the spec: a three.js `Points` drawable, carrying its
geometry's position attribute and its material. -/
structure PointsObj where
  position : BufferAttribute
  material : PointsMaterial

/-- Default point size of `viz_pts` (`size: float = 0.03`). -/
def viz_pts_default_size : ℚ := 3 / 100

/-- Default colour of `viz_pts` (`rgb_color: list = [1,1,1]`). -/
def viz_pts_default_color : List ℚ := [1, 1, 1]

/-- `libthree.viz_pts`: wrap the flat position list in a `BufferAttribute`
with item size 3 and build a `Points` with a `PointsMaterial` whose colour is
`(rgb_color[0], rgb_color[1], rgb_color[2])`; indexing a too-short colour
list raises in Python, hence `Option`. -/
def viz_pts (positions : List ℚ) (size : ℚ) (rgb_color : List ℚ) : Option PointsObj :=
  match rgb_color with
  | r :: g :: b :: _ =>
      some { position := ⟨positions, 3⟩
             material := ⟨(r, g, b), size, true⟩ }
  | _ => none

/-- C7: for a flat position buffer of length `3 * k`, `viz_pts` builds a
point-cloud drawable whose underlying point count is `k`; with the buffer
`[0,0,0, 1,0,0, 0,1,0]` and the default arguments the drawable has 3 points,
colour `(1,1,1)` and size `0.03`. -/
theorem C7_viz_pts_count :
    (∀ (positions : List ℚ) (size : ℚ) (rgb_color : List ℚ) (k : ℕ) (pts : PointsObj),
        positions.length = 3 * k →
        viz_pts positions size rgb_color = some pts →
        pts.position.count = k) ∧
    (∃ pts : PointsObj,
        viz_pts [0, 0, 0, 1, 0, 0, 0, 1, 0] viz_pts_default_size viz_pts_default_color =
          some pts ∧
        pts.position.count = 3 ∧ pts.material.color = (1, 1, 1) ∧
        pts.material.size = 3 / 100) := by
  constructor
  · intro positions size rgb_color k pts hlen hsome
    match rgb_color, hsome with
    | r :: g :: b :: _, hsome =>
        cases hsome
        simp [BufferAttribute.count, hlen, Nat.mul_div_cancel_left]
  · exact ⟨_, rfl, rfl, rfl, rfl⟩

/-- Witness for C7 at a concrete input: a 6-float buffer gives 2 points. -/
theorem C7_viz_pts_count_witness :
    ∃ pts : PointsObj,
      viz_pts [5, 6, 7, 8, 9, 10] 1 [0, 1, 0] = some pts ∧ pts.position.count = 2 := by
  refine ⟨_, rfl, ?_⟩
  exact C7_viz_pts_count.1 [5, 6, 7, 8, 9, 10] 1 [0, 1, 0] 2 _ (by decide) rfl

/-- Modelled from the spec: one triggered anchor-click download (file name,
extension, payload bytes and the object URL its `href` points to). -/
structure Download where
  fileName : String
  fileType : String
  payload : List ℕ
  href : ℕ

/-- Modelled from the spec: the browser-host state touched by the download
path — an allocator for object URLs (`URL.createObjectURL`), the URLs
allocated so far, the URLs revoked so far (`URL.revokeObjectURL`, which this
layer never calls), and the downloads triggered so far. -/
structure BrowserState where
  nextUrl : ℕ
  objectUrls : List ℕ
  revokedUrls : List ℕ
  downloads : List Download

/-- `utils.create_hidden_link`: copy the buffer into a JS array, wrap it in a
`File`, create an object URL for it, build a hidden anchor whose download
attribute is the file name and whose `href` is that URL, and click it once.
No revocation of the URL is performed. -/
def create_hidden_link (s : BrowserState) (bstream : List ℕ)
    (file_name file_type : String) : BrowserState :=
  let url := s.nextUrl
  { nextUrl := s.nextUrl + 1
    objectUrls := s.objectUrls ++ [url]
    revokedUrls := s.revokedUrls
    downloads := s.downloads ++ [⟨file_name, file_type, bstream, url⟩] }

/-- C9: every call to `create_hidden_link` appends exactly one anchor-click
download of the given byte buffer, allocates exactly one object URL, and
revokes nothing (the URL is never cleaned up by this layer); the set of
revoked URLs — the rest of the modelled browser state — is untouched. -/
theorem C9_create_hidden_link_effect :
    ∀ (s : BrowserState) (bstream : List ℕ) (file_name file_type : String),
      (create_hidden_link s bstream file_name file_type).downloads =
          s.downloads ++ [⟨file_name, file_type, bstream, s.nextUrl⟩] ∧
      (create_hidden_link s bstream file_name file_type).objectUrls =
          s.objectUrls ++ [s.nextUrl] ∧
      (create_hidden_link s bstream file_name file_type).revokedUrls = s.revokedUrls ∧
      (s.nextUrl ∉ s.objectUrls →
        (create_hidden_link s bstream file_name file_type).objectUrls.count s.nextUrl = 1) := by
  intro s bstream file_name file_type
  refine ⟨rfl, rfl, rfl, fun h => ?_⟩
  simp [create_hidden_link, List.count_eq_zero.mpr h]

/-- Witness for C9 at a concrete state: one download appended, URL counted
once, nothing revoked. -/
theorem C9_create_hidden_link_effect_witness :
    (create_hidden_link ⟨7, [3], [2], []⟩ [10, 20] "out" "csv").downloads =
        [⟨"out", "csv", [10, 20], 7⟩] ∧
    (create_hidden_link ⟨7, [3], [2], []⟩ [10, 20] "out" "csv").objectUrls = [3, 7] ∧
    (create_hidden_link ⟨7, [3], [2], []⟩ [10, 20] "out" "csv").revokedUrls = [2] ∧
    (create_hidden_link ⟨7, [3], [2], []⟩ [10, 20] "out" "csv").objectUrls.count 7 = 1 := by
  have h := C9_create_hidden_link_effect ⟨7, [3], [2], []⟩ [10, 20] "out" "csv"
  exact ⟨h.1, h.2.1, h.2.2.1, h.2.2.2 (by decide)⟩

/-- Modelled from the spec: `geomie3d.utility.calc_falsecolour(vals, minval, mxval)`
maps each value linearly into an RGB triple between the two bounds via an
external colour-ramp function (clamping is delegated to it); one triple per
value, in input order. -/
def falsecolour_ramp (minval mxval v : ℚ) : V3 :=
  ((v - minval) / (mxval - minval), 0, 1 - (v - minval) / (mxval - minval))

/-- Modelled from the spec: the per-value RGB triples produced by the ramp. -/
def calc_falsecolour (vals : List ℚ) (minval mxval : ℚ) : List V3 :=
  vals.map (falsecolour_ramp minval mxval)

/-- `utils.rgb_falsecolors`: compute the falsecolour triples and flatten them
to a flat rgb list (`np.array(rgbs).flatten().tolist()`). -/
def rgb_falsecolors (vals : List ℚ) (minval mxval : ℚ) : List ℚ :=
  ((calc_falsecolour vals minval mxval).map (fun c => [c.1, c.2.1, c.2.2])).flatten

lemma flatten_triples_length (l : List V3) :
    ((l.map (fun c => [c.1, c.2.1, c.2.2])).flatten).length = 3 * l.length := by
  induction l with
  | nil => rfl
  | cons p ps ih => simp only [List.map_cons, List.flatten_cons, List.length_append, ih,
      List.length_cons, List.length_nil]; ring

lemma flatten_triples_drop (l : List V3) :
    ∀ i (hi : i < l.length),
      ((l.map (fun c => [c.1, c.2.1, c.2.2])).flatten.drop (3 * i)).take 3 =
        (fun c => [c.1, c.2.1, c.2.2]) (l.get ⟨i, hi⟩) := by
  induction l with
  | nil => intro i hi; simp at hi
  | cons p ps ih =>
      intro i hi
      cases i with
      | zero => simp
      | succ j =>
          have hj : j < ps.length := Nat.lt_of_succ_lt_succ hi
          have hdrop :
              ((p :: ps).map (fun c => [c.1, c.2.1, c.2.2])).flatten.drop (3 * (j + 1)) =
                (ps.map (fun c => [c.1, c.2.1, c.2.2])).flatten.drop (3 * j) := by
            rw [show 3 * (j + 1) = 3 * j + 1 + 1 + 1 from by ring]
            simp [List.drop_succ_cons]
          rw [hdrop]
          simpa using ih j hj

/-- C10: for an input value list of length `n` and any range, the result of
`rgb_falsecolors` is a flat list of length exactly `3 * n`, and the `i`-th
consecutive triple of the output is exactly the RGB triple computed for the
`i`-th input value — the flattening of the per-value triples in input
order. -/
theorem C10_rgb_falsecolors_flat :
    ∀ (vals : List ℚ) (minval mxval : ℚ),
      (rgb_falsecolors vals minval mxval).length = 3 * vals.length ∧
      ∀ i (hi : i < vals.length),
        ((rgb_falsecolors vals minval mxval).drop (3 * i)).take 3 =
          [(falsecolour_ramp minval mxval (vals.get ⟨i, hi⟩)).1,
           (falsecolour_ramp minval mxval (vals.get ⟨i, hi⟩)).2.1,
           (falsecolour_ramp minval mxval (vals.get ⟨i, hi⟩)).2.2] := by
  intro vals minval mxval
  constructor
  · rw [rgb_falsecolors, flatten_triples_length]
    simp [calc_falsecolour]
  · intro i hi
    have hi2 : i < (calc_falsecolour vals minval mxval).length := by
      simpa [calc_falsecolour] using hi
    rw [rgb_falsecolors, flatten_triples_drop (calc_falsecolour vals minval mxval) i hi2]
    simp [calc_falsecolour]

/-- Witness for C10 at a concrete input: two values give six rgb entries and
the second triple is the ramp value of the second input. -/
theorem C10_rgb_falsecolors_flat_witness :
    (rgb_falsecolors [0, 5] 0 10).length = 3 * 2 ∧
    ((rgb_falsecolors [0, 5] 0 10).drop (3 * 1)).take 3 = [1 / 2, 0, 1 / 2] := by
  have h := C10_rgb_falsecolors_flat [0, 5] 0 10
  refine ⟨h.1, ?_⟩
  rw [h.2 1 (by decide)]
  norm_num [falsecolour_ramp]

/-- Modelled from the spec: a three.js `BufferGeometry` produced by
`EdgesGeometry`, reduced to the attributes the code touches: the line-segment
position vertices and the per-vertex colour attribute. -/
structure EdgeGeom where
  positions : List V3
  colors : List ℚ

/-- Modelled from the spec: a three.js `LineSegments` drawable over an edge
geometry with a `vertexColors` material. -/
structure LineSegmentsObj where
  geometry : EdgeGeom
  vertexColors : Bool

/-- Modelled from the spec: the position vertices of
`THREE.EdgesGeometry(THREE.BoxGeometry(d, d, d))` — the 12 edges of the cube
of edge length `d` centred at the origin, two endpoint vertices per edge
(24 position vertices): four edges parallel to each axis. -/
def box_edge_vertices (d : ℚ) : List V3 :=
  let h := d / 2
  [(-h, -h, -h), (h, -h, -h),  (-h, h, -h), (h, h, -h),
   (-h, -h, h), (h, -h, h),  (-h, h, h), (h, h, h),
   (-h, -h, -h), (-h, h, -h),  (h, -h, -h), (h, h, -h),
   (-h, -h, h), (-h, h, h),  (h, -h, h), (h, h, h),
   (-h, -h, -h), (-h, -h, h),  (h, -h, -h), (h, -h, h),
   (-h, h, -h), (-h, h, h),  (h, h, -h), (h, h, h)]

/-- One voxel's edge geometry: the cube edge vertices translated to the
midpoint (`applyMatrix4(makeTranslation(...))`), with that voxel's flat
colour list attached as the `color` attribute. -/
def vox_edge_geom (vox_dim : ℚ) (midpt : V3) (color : List ℚ) : EdgeGeom :=
  { positions := (box_edge_vertices vox_dim).map (v3add midpt)
    colors := color }

/-- Modelled from the spec: three.js `BufferGeometryUtils.mergeGeometries`
with `useGroups` — the merged geometry concatenates each attribute of the
input geometries in array order.  On an empty array the real function
dereferences `geometries[0]` unconditionally and throws, hence `none`. -/
def mergeGeometries : List EdgeGeom → Bool → Option EdgeGeom
  | [], _ => none
  | g :: gs, _ =>
      some { positions := ((g :: gs).map EdgeGeom.positions).flatten
             colors := ((g :: gs).map EdgeGeom.colors).flatten }

/-- The per-voxel loop of `viz_vox_outlines`: one edge geometry per midpoint,
taking the colour at the running index (`colors[cnt]`); a missing colour
entry is a Python `IndexError`, hence `none`. -/
def build_vox_geoms : List V3 → List (List ℚ) → ℚ → Option (List EdgeGeom)
  | [], _, _ => some []
  | _ :: _, [], _ => none
  | m :: ms, c :: cs, d => (build_vox_geoms ms cs d).map (fun gs => vox_edge_geom d m c :: gs)

/-- `libthree.viz_vox_outlines`: build each voxel's edge geometry in input
order, merge them preserving the colour attribute, and wrap the merged
geometry in a `LineSegments` with a vertex-colour material. -/
def viz_vox_outlines (midpts : List V3) (colors : List (List ℚ)) (vox_dim : ℚ) :
    Option LineSegmentsObj :=
  (build_vox_geoms midpts colors vox_dim).bind fun geometries =>
    (mergeGeometries geometries true).map fun merged => ⟨merged, true⟩

lemma build_vox_geoms_eq :
    ∀ (ms : List V3) (cs : List (List ℚ)) (d : ℚ), ms.length = cs.length →
      build_vox_geoms ms cs d =
        some ((ms.zip cs).map (fun mc => vox_edge_geom d mc.1 mc.2))
  | [], [], _, _ => rfl
  | [], _ :: _, _, h => by simp at h
  | _ :: _, [], _, h => by simp at h
  | m :: ms, c :: cs, d, h => by
      have h2 : ms.length = cs.length := by simpa using h
      simp [build_vox_geoms, build_vox_geoms_eq ms cs d h2, List.zip_cons_cons]

/-- C6 (amended): for one or more voxel centres, with one colour list per
voxel, `viz_vox_outlines` returns a single merged outline whose vertex order
is the concatenation of each voxel's individually-computed cube-edge
vertices in input-sequence order, with the per-voxel colours concatenated in
the same order. -/
theorem C6_viz_vox_outlines_merge :
    ∀ (midpts : List V3) (colors : List (List ℚ)) (vox_dim : ℚ),
      midpts ≠ [] → midpts.length = colors.length →
      ∃ out : LineSegmentsObj,
        viz_vox_outlines midpts colors vox_dim = some out ∧
        out.geometry.positions =
          (midpts.map (fun mp => (box_edge_vertices vox_dim).map (v3add mp))).flatten ∧
        out.geometry.colors = colors.flatten ∧
        out.vertexColors = true := by
  intro midpts colors vox_dim hne hlen
  rw [viz_vox_outlines, build_vox_geoms_eq midpts colors vox_dim hlen]
  have hzip : (midpts.zip colors).map (fun mc => vox_edge_geom vox_dim mc.1 mc.2) ≠ [] := by
    intro h
    rcases midpts with _ | ⟨m, ms⟩
    · exact hne rfl
    · rcases colors with _ | ⟨c, cs⟩
      · simp at hlen
      · simp [List.zip_cons_cons] at h
  rcases hgs : (midpts.zip colors).map (fun mc => vox_edge_geom vox_dim mc.1 mc.2) with _ | ⟨g, gs⟩
  · exact absurd hgs hzip
  · rw [hgs]
    simp only [Option.some_bind, mergeGeometries, Option.map_some]
    refine ⟨_, rfl, ?_, ?_, rfl⟩
    · rw [← hgs]
      have hfst : List.map EdgeGeom.positions
            (List.map (fun mc => vox_edge_geom vox_dim mc.1 mc.2) (midpts.zip colors)) =
          List.map (fun mp => List.map (v3add mp) (box_edge_vertices vox_dim)) midpts := by
        rw [List.map_map,
          show (EdgeGeom.positions ∘ fun mc : V3 × List ℚ => vox_edge_geom vox_dim mc.1 mc.2) =
            (fun mp : V3 => List.map (v3add mp) (box_edge_vertices vox_dim)) ∘ Prod.fst from rfl,
          ← List.map_map, List.map_fst_zip midpts colors (le_of_eq hlen)]
      exact congrArg List.flatten hfst
    · rw [← hgs]
      have hsnd : List.map EdgeGeom.colors
            (List.map (fun mc => vox_edge_geom vox_dim mc.1 mc.2) (midpts.zip colors)) =
          colors := by
        rw [List.map_map,
          show (EdgeGeom.colors ∘ fun mc : V3 × List ℚ => vox_edge_geom vox_dim mc.1 mc.2) =
            Prod.snd from rfl,
          List.map_snd_zip midpts colors (le_of_eq hlen.symm)]
      exact congrArg List.flatten hsnd

/-- Witness for C6 at a concrete input: one voxel at the origin. -/
theorem C6_viz_vox_outlines_merge_witness :
    ∃ out : LineSegmentsObj,
      viz_vox_outlines [(0, 0, 0)] [[1, 0, 0]] 2 = some out ∧
      out.geometry.positions = box_edge_vertices 2 ∧
      out.geometry.colors = [1, 0, 0] := by
  obtain ⟨out, h1, h2, h3, _⟩ :=
    C6_viz_vox_outlines_merge [(0, 0, 0)] [[1, 0, 0]] 2 (by simp) (by simp)
  refine ⟨out, h1, ?_, by simpa using h3⟩
  rw [h2]
  have hadd : ∀ p : V3, v3add (0, 0, 0) p = p := by
    intro p
    obtain ⟨x, y, z⟩ := p
    simp [v3add]
  simp only [List.map_cons, List.map_nil, List.flatten_cons, List.flatten_nil, List.append_nil]
  rw [List.map_congr_left fun p _ => hadd p]
  exact List.map_id (box_edge_vertices 2)

/-- C6 counterexample: called with zero voxel centres, `viz_vox_outlines`
does not produce an empty drawable — the merge step fails (three.js
`mergeGeometries` dereferences the first element of an empty list). -/
theorem C6_viz_vox_outlines_empty_fails :
    viz_vox_outlines [] [] 1 = none := rfl

/-- Group a flat float buffer into 3-d vertices, three floats per vertex
(`BufferAttribute(poss, 3)`; an incomplete trailing group is not a vertex,
matching the attribute count `length / 3`). -/
def chunk3 : List ℚ → List V3
  | x :: y :: z :: rest => (x, y, z) :: chunk3 rest
  | _ => []

/-- Group a vertex list into triangles, three vertices per triangle. -/
def chunkTri : List V3 → List (V3 × V3 × V3)
  | a :: b :: c :: rest => (a, b, c) :: chunkTri rest
  | _ => []

/-- The face vector three.js computes for a triangle `(pA, pB, pC)`:
`cross(pC - pB, pA - pB)`. -/
def face_normal (t : V3 × V3 × V3) : V3 :=
  v3cross (v3sub t.2.2 t.2.1) (v3sub t.1 t.2.1)

/-- Modelled from the spec: `BufferGeometry.computeVertexNormals` on
non-indexed geometry — each consecutive vertex triple is one independent
triangle, and all three of its vertices receive that triangle's face vector
(three.js finally rescales every normal to unit length; the positive
per-vertex scaling needs a square root and is left out of the exact
embedding, which keeps the direction and the per-vertex assignment). -/
def computeVertexNormals (verts : List V3) : List V3 :=
  ((chunkTri verts).map (fun t => [face_normal t, face_normal t, face_normal t])).flatten

/-- The three edges of a triangle. -/
def tri_edges (t : V3 × V3 × V3) : List (V3 × V3) :=
  [(t.1, t.2.1), (t.2.1, t.2.2), (t.2.2, t.1)]

/-- Two endpoint pairs describe the same undirected edge. -/
def same_edge (e f : V3 × V3) : Prop :=
  e = f ∨ (e.1 = f.2 ∧ e.2 = f.1)

instance : DecidablePred fun ef : (V3 × V3) × (V3 × V3) => same_edge ef.1 ef.2 := by
  intro ef
  unfold same_edge
  infer_instance

instance (e f : V3 × V3) : Decidable (same_edge e f) := by
  unfold same_edge
  infer_instance

/-- Modelled from the spec: `THREE.EdgesGeometry(geometry)` — the wireframe
line segments derived from the mesh's edges: an edge of a triangle is kept
when no other triangle shares it (a boundary edge) or some triangle sharing
it meets it at an angle (exact-arithmetic reading of the default threshold:
the two face vectors are not positively parallel). -/
def edges_geometry (verts : List V3) : List (V3 × V3) :=
  let tris := chunkTri verts
  (tris.map (fun t =>
    (tri_edges t).filter (fun e =>
      decide (∀ u ∈ tris, u = t ∨ (∀ f ∈ tri_edges u, ¬ same_edge e f) ∨
        ¬ (v3cross (face_normal t) (face_normal u) = (0, 0, 0) ∧
           0 < v3dot (face_normal t) (face_normal u)))))).flatten

/-- Modelled from the spec: a three.js `Mesh` drawable, reduced to the
attributes the code sets: vertex positions, vertex normals and the material
colour. -/
structure MeshObj where
  positions : List V3
  normals : List V3
  color : V3

/-- Modelled from the spec: the `LineSegments` wireframe drawable built from
an `EdgesGeometry`, with its fixed white line material. -/
structure WireframeObj where
  edges : List (V3 × V3)
  color : V3

/-- `libthree.create_tri_mesh`: wrap the flat triangle buffer as position
data, compute vertex normals, build the solid mesh with the colour
`(rgb_color[0], rgb_color[1], rgb_color[2])`, and build a separate
`LineSegments` outline from `EdgesGeometry` of the same geometry; indexing a
too-short colour list raises in Python, hence `Option`. -/
def create_tri_mesh (positions : List ℚ) (rgb_color : List ℚ) :
    Option (MeshObj × WireframeObj) :=
  match rgb_color with
  | r :: g :: b :: _ =>
      let verts := chunk3 positions
      some ({ positions := verts, normals := computeVertexNormals verts, color := (r, g, b) },
            { edges := edges_geometry verts, color := (1, 1, 1) })
  | _ => none

lemma chunk3_length : ∀ l : List ℚ, (chunk3 l).length = l.length / 3
  | [] => rfl
  | [_] => by simp [chunk3]
  | [_, _] => by simp [chunk3]
  | _ :: _ :: _ :: rest => by
      rw [chunk3]
      simp only [List.length_cons, chunk3_length rest]
      omega

lemma chunkTri_length : ∀ l : List V3, (chunkTri l).length = l.length / 3
  | [] => rfl
  | [_] => by simp [chunkTri]
  | [_, _] => by simp [chunkTri]
  | _ :: _ :: _ :: rest => by
      rw [chunkTri]
      simp only [List.length_cons, chunkTri_length rest]
      omega

lemma flatten_map3_length {α β : Type} (g : α → List β) (hg : ∀ a, (g a).length = 3)
    (l : List α) : ((l.map g).flatten).length = 3 * l.length := by
  induction l with
  | nil => rfl
  | cons p ps ih =>
      simp only [List.map_cons, List.flatten_cons, List.length_append, ih, hg,
        List.length_cons]
      ring

lemma flatten_map3_drop {α β : Type} (g : α → List β) (hg : ∀ a, (g a).length = 3) :
    ∀ (l : List α) (i : ℕ) (hi : i < l.length),
      (((l.map g).flatten.drop (3 * i)).take 3) = g (l.get ⟨i, hi⟩)
  | [], i, hi => by simp at hi
  | p :: ps, 0, _ => by
      simp only [List.map_cons, List.flatten_cons, Nat.mul_zero, List.drop_zero]
      rw [← hg p, List.take_left]
      rfl
  | p :: ps, j + 1, hi => by
      have hj : j < ps.length := Nat.lt_of_succ_lt_succ hi
      have hdrop : ((p :: ps).map g).flatten.drop (3 * (j + 1)) =
          (ps.map g).flatten.drop (3 * j) := by
        simp only [List.map_cons, List.flatten_cons]
        rw [show 3 * (j + 1) = 3 + 3 * j from by ring, ← List.drop_drop]
        have hdl : List.drop 3 (g p ++ (ps.map g).flatten) = (ps.map g).flatten := by
          rw [← hg p, List.drop_left]
        rw [hdl]
      rw [hdrop]
      exact flatten_map3_drop g hg ps j hj

/-- C8: for a triangle buffer of length `9 * k` and an RGB triple,
`create_tri_mesh` returns a solid mesh and a separate wireframe object: the
mesh carries one normal per raw vertex (`3 * k` of them), each of the three
vertices of triangle `t` receiving exactly triangle `t`'s own face vector
computed from the raw positions — no deduplication of shared vertices — and
the wireframe is derived from the edges of the same geometry. -/
theorem C8_create_tri_mesh_normals :
    ∀ (positions : List ℚ) (r g b : ℚ) (rest : List ℚ) (k : ℕ)
      (hlen : positions.length = 9 * k),
      ∃ (mesh : MeshObj) (outline : WireframeObj),
        create_tri_mesh positions (r :: g :: b :: rest) = some (mesh, outline) ∧
        mesh.positions = chunk3 positions ∧
        mesh.normals.length = mesh.positions.length ∧
        (∀ t (ht : t < k),
          ((mesh.normals.drop (3 * t)).take 3) =
            [face_normal ((chunkTri (chunk3 positions)).get
                ⟨t, by rw [chunkTri_length, chunk3_length]; omega⟩),
             face_normal ((chunkTri (chunk3 positions)).get
                ⟨t, by rw [chunkTri_length, chunk3_length]; omega⟩),
             face_normal ((chunkTri (chunk3 positions)).get
                ⟨t, by rw [chunkTri_length, chunk3_length]; omega⟩)]) ∧
        outline.edges = edges_geometry (chunk3 positions) ∧
        mesh.color = (r, g, b) ∧ outline.color = (1, 1, 1) := by
  intro positions r g b rest k hlen
  refine ⟨_, _, rfl, rfl, ?_, ?_, rfl, rfl, rfl⟩
  · show (computeVertexNormals (chunk3 positions)).length = (chunk3 positions).length
    unfold computeVertexNormals
    rw [flatten_map3_length (fun u => [face_normal u, face_normal u, face_normal u])
      (fun _ => rfl)]
    rw [chunkTri_length, chunk3_length, hlen]
    omega
  · intro t ht
    show ((computeVertexNormals (chunk3 positions)).drop (3 * t)).take 3 = _
    unfold computeVertexNormals
    have ht2 : t < (chunkTri (chunk3 positions)).length := by
      rw [chunkTri_length, chunk3_length, hlen]
      omega
    rw [flatten_map3_drop (fun u => [face_normal u, face_normal u, face_normal u])
      (fun _ => rfl) (chunkTri (chunk3 positions)) t ht2]

/-- Witness for C8 at a concrete input: the single triangle
`(0,0,0), (1,0,0), (0,1,0)` gets the face vector `(0,0,1)` at each of its
three vertices. -/
theorem C8_create_tri_mesh_normals_witness :
    ∃ (mesh : MeshObj) (outline : WireframeObj),
      create_tri_mesh [0, 0, 0, 1, 0, 0, 0, 1, 0] [(4 : ℚ)/5, 4/5, 4/5] =
        some (mesh, outline) ∧
      (mesh.normals.drop (3 * 0)).take 3 =
        [((0 : ℚ), (0 : ℚ), (1 : ℚ)), (0, 0, 1), (0, 0, 1)] := by
  obtain ⟨mesh, outline, h1, _, _, h4, _⟩ :=
    C8_create_tri_mesh_normals [0, 0, 0, 1, 0, 0, 0, 1, 0] (4/5) (4/5) (4/5) [] 1
      (by norm_num)
  refine ⟨mesh, outline, h1, ?_⟩
  have h0 := h4 0 (by norm_num)
  norm_num [chunk3, chunkTri, face_normal, v3cross, v3sub] at h0
  exact h0

/-- The ASCII digit character for a digit value `0 ≤ d ≤ 9`. -/
def digitChar : ℕ → Char
  | 0 => '0' | 1 => '1' | 2 => '2' | 3 => '3' | 4 => '4'
  | 5 => '5' | 6 => '6' | 7 => '7' | 8 => '8' | _ => '9'

/-- The digit value of an ASCII digit character. -/
def charDigit (c : Char) : ℕ :=
  if c = '0' then 0 else if c = '1' then 1 else if c = '2' then 2
  else if c = '3' then 3 else if c = '4' then 4 else if c = '5' then 5
  else if c = '6' then 6 else if c = '7' then 7 else if c = '8' then 8 else 9

/-- Decimal digit characters of a natural number, most significant first. -/
def natToChars (n : ℕ) : List Char :=
  if n = 0 then ['0'] else ((Nat.digits 10 n).reverse).map digitChar

/-- Value of a list of decimal digit characters, most significant first. -/
def charsToNat (cs : List Char) : ℕ :=
  Nat.ofDigits 10 ((cs.map charDigit).reverse)

lemma charDigit_digitChar : ∀ d, d < 10 → charDigit (digitChar d) = d := by decide

lemma natToChars_round (n : ℕ) : charsToNat (natToChars n) = n := by
  by_cases h : n = 0
  · subst h
    rfl
  · unfold natToChars charsToNat
    rw [if_neg h]
    simp only [List.map_map, List.map_reverse, List.reverse_reverse]
    have hmap : (Nat.digits 10 n).map (charDigit ∘ digitChar) = Nat.digits 10 n := by
      have h1 : (Nat.digits 10 n).map (charDigit ∘ digitChar) =
          (Nat.digits 10 n).map id :=
        List.map_congr_left fun d hd =>
          charDigit_digitChar d (Nat.digits_lt_base (by norm_num) hd)
      rw [h1, List.map_id]
    rw [hmap, Nat.ofDigits_digits]

lemma natToChars_ne_nil (n : ℕ) : natToChars n ≠ [] := by
  unfold natToChars
  by_cases h : n = 0
  · simp [h]
  · rw [if_neg h]
    intro hcon
    have hne : Nat.digits 10 n ≠ [] := Nat.digits_ne_nil_iff_ne_zero.mpr h
    simp at hcon
    exact hne hcon

lemma mem_natToChars (c : Char) (n : ℕ) (hc : c ∈ natToChars n) :
    ∃ d, d < 10 ∧ c = digitChar d := by
  unfold natToChars at hc
  by_cases h : n = 0
  · rw [if_pos h] at hc
    exact ⟨0, by norm_num, by simpa using hc⟩
  · rw [if_neg h] at hc
    obtain ⟨d, hd, hde⟩ := List.mem_map.mp hc
    exact ⟨d, Nat.digits_lt_base (by norm_num) (List.mem_reverse.mp hd), hde.symm⟩

lemma digitChar_not_special : ∀ d, d < 10 →
    digitChar d ≠ '/' ∧ digitChar d ≠ '-' ∧ digitChar d ≠ ' ' ∧ digitChar d ≠ '\n' := by
  decide

/-- Signed decimal digit characters of an integer. -/
def intToChars (i : ℤ) : List Char :=
  if i < 0 then '-' :: natToChars i.natAbs else natToChars i.natAbs

/-- Value of signed decimal digit characters. -/
def charsToInt (cs : List Char) : ℤ :=
  match cs with
  | [] => 0
  | c :: rest => if c = '-' then -(charsToNat rest : ℤ) else (charsToNat (c :: rest) : ℤ)

lemma intToChars_round (i : ℤ) : charsToInt (intToChars i) = i := by
  unfold intToChars
  by_cases h : i < 0
  · rw [if_pos h]
    show (if ('-' : Char) = '-' then -(charsToNat (natToChars i.natAbs) : ℤ)
      else (charsToNat ('-' :: natToChars i.natAbs) : ℤ)) = i
    rw [if_pos rfl, natToChars_round]
    omega
  · rw [if_neg h]
    rcases hn : natToChars i.natAbs with _ | ⟨c, cs⟩
    · exact absurd hn (natToChars_ne_nil i.natAbs)
    · have hc : c ≠ '-' := by
        obtain ⟨d, hd, hde⟩ := mem_natToChars c i.natAbs (by rw [hn]; exact List.mem_cons_self c cs)
        rw [hde]
        exact (digitChar_not_special d hd).2.1
      show (if c = '-' then -(charsToNat cs : ℤ) else (charsToNat (c :: cs) : ℤ)) = i
      rw [if_neg hc, ← hn, natToChars_round]
      omega

lemma mem_intToChars (c : Char) (i : ℤ) (hc : c ∈ intToChars i) :
    c = '-' ∨ ∃ d, d < 10 ∧ c = digitChar d := by
  unfold intToChars at hc
  by_cases h : i < 0
  · rw [if_pos h] at hc
    rcases List.mem_cons.mp hc with h2 | h2
    · exact Or.inl h2
    · exact Or.inr (mem_natToChars c i.natAbs h2)
  · rw [if_neg h] at hc
    exact Or.inr (mem_natToChars c i.natAbs hc)

/-- Join token lists with a separator character between consecutive tokens. -/
def joinSep (sep : Char) : List (List Char) → List Char
  | [] => []
  | [t] => t
  | t :: t2 :: ts => t ++ sep :: joinSep sep (t2 :: ts)

/-- Split a character list at every occurrence of the separator. -/
def splitOnChar (sep : Char) : List Char → List (List Char)
  | [] => [[]]
  | c :: cs =>
      if c = sep then [] :: splitOnChar sep cs
      else
        match splitOnChar sep cs with
        | [] => [[c]]
        | t :: ts => (c :: t) :: ts

lemma splitOnChar_ne_nil (sep : Char) (l : List Char) : splitOnChar sep l ≠ [] := by
  induction l with
  | nil => simp [splitOnChar]
  | cons c cs ih =>
      unfold splitOnChar
      by_cases h : c = sep
      · simp [h]
      · rw [if_neg h]
        rcases hs : splitOnChar sep cs with _ | ⟨t, ts⟩
        · simp
        · simp

lemma splitOnChar_no_sep (sep : Char) (l : List Char) (h : sep ∉ l) :
    splitOnChar sep l = [l] := by
  induction l with
  | nil => rfl
  | cons c cs ih =>
      unfold splitOnChar
      have hc : c ≠ sep := fun hcon => h (hcon ▸ List.mem_cons_self c cs)
      rw [if_neg hc, ih (fun hcon => h (List.mem_cons_of_mem c hcon))]

lemma splitOnChar_append_sep (sep : Char) (l rest : List Char) (h : sep ∉ l) :
    splitOnChar sep (l ++ sep :: rest) = l :: splitOnChar sep rest := by
  induction l with
  | nil => simp [splitOnChar]
  | cons c cs ih =>
      have hc : c ≠ sep := fun hcon => h (hcon ▸ List.mem_cons_self c cs)
      have ih2 := ih (fun hcon => h (List.mem_cons_of_mem c hcon))
      simp only [List.cons_append, splitOnChar, List.append_eq, if_neg hc, ih2]

lemma splitOnChar_joinSep (sep : Char) :
    ∀ (tokens : List (List Char)), tokens ≠ [] → (∀ t ∈ tokens, sep ∉ t) →
      splitOnChar sep (joinSep sep tokens) = tokens
  | [], h, _ => absurd rfl h
  | [t], _, hno => by
      rw [joinSep, splitOnChar_no_sep sep t (hno t (List.mem_cons_self t []))]
  | t :: t2 :: ts, _, hno => by
      rw [joinSep, splitOnChar_append_sep sep t _ (hno t (List.mem_cons_self t _)),
        splitOnChar_joinSep sep (t2 :: ts) (by simp)
          (fun u hu => hno u (List.mem_cons_of_mem t hu))]

/-- An exact numeric token: numerator, a slash, denominator.  The plyfile
codec writes each stored value as an ASCII literal whose parse is exact for
the stored precision; the embedding keeps that exactness with rational
literals. -/
def ratToChars (q : ℚ) : List Char :=
  intToChars q.num ++ '/' :: natToChars q.den

/-- Parse an exact numeric token. -/
def charsToRat (cs : List Char) : Option ℚ :=
  match splitOnChar '/' cs with
  | [a, b] => some ((charsToInt a : ℚ) / (charsToNat b : ℚ))
  | _ => none

lemma not_mem_natToChars (c : Char) (n : ℕ)
    (hc : c = '/' ∨ c = '-' ∨ c = ' ' ∨ c = '\n') : c ∉ natToChars n := by
  intro hmem
  obtain ⟨d, hd, hde⟩ := mem_natToChars c n hmem
  have := digitChar_not_special d hd
  rcases hc with h | h | h | h <;> subst h <;> exact absurd hde.symm (by tauto)

lemma not_mem_intToChars (c : Char) (i : ℤ)
    (hc : c = '/' ∨ c = ' ' ∨ c = '\n') : c ∉ intToChars i := by
  intro hmem
  rcases mem_intToChars c i hmem with h | ⟨d, hd, hde⟩
  · subst h
    rcases hc with h | h | h <;> simp at h
  · have := digitChar_not_special d hd
    rcases hc with h | h | h <;> subst h <;> exact absurd hde.symm (by tauto)

lemma not_mem_ratToChars (c : Char) (q : ℚ)
    (hc : c = ' ' ∨ c = '\n') : c ∉ ratToChars q := by
  intro hmem
  unfold ratToChars at hmem
  rcases List.mem_append.mp hmem with h | h
  · exact not_mem_intToChars c q.num (by tauto) h
  · rcases List.mem_cons.mp h with h2 | h2
    · rcases hc with h3 | h3 <;> subst h3 <;> simp at h2
    · exact not_mem_natToChars c q.den (by tauto) h2

lemma ratToChars_round (q : ℚ) : charsToRat (ratToChars q) = some q := by
  unfold charsToRat ratToChars
  rw [splitOnChar_append_sep '/' _ _ (not_mem_intToChars '/' q.num (by tauto)),
    splitOnChar_no_sep '/' _ (not_mem_natToChars '/' q.den (by tauto))]
  show some ((charsToInt (intToChars q.num) : ℚ) / (charsToNat (natToChars q.den) : ℚ)) = some q
  rw [intToChars_round, natToChars_round, Rat.num_div_den]

/-- The first line of a PLY file. -/
def ply_magic : List Char := "ply".toList

/-- The format line `plyfile` writes in text mode. -/
def ply_format_line : List Char := "format ascii 1.0".toList

/-- Prefix of the vertex-element count line (15 characters). -/
def ply_element_head : List Char := "element vertex ".toList

/-- Prefix of a property declaration line (9 characters). -/
def ply_property_head : List Char := "property ".toList

/-- The header terminator line. -/
def ply_end_header : List Char := "end_header".toList

/-- Modelled from the spec: the `plyfile` encode path used by
`utils.write_ply_web` — `np.array(vertex_data, dtype=dtype_val)` (which
fails unless every row tuple's arity matches the dtype list, hence
`Option`), `PlyElement.describe(..., 'vertex')` and `PlyData(..., text=True)`
serialized to a text buffer, here represented as its list of lines: the
magic line, the format line, the vertex-element count line, one property
line per dtype field (type then name), the header terminator, then one line
per row with the row's values as space-separated tokens in field order. -/
def write_ply_web (vertex_data : List (List ℚ))
    (dtype_val : List (List Char × List Char)) : Option (List (List Char)) :=
  if vertex_data.all (fun row => row.length == dtype_val.length) then
    some (ply_magic :: ply_format_line ::
      (ply_element_head ++ natToChars vertex_data.length) ::
      (dtype_val.map (fun ft => ply_property_head ++ ft.2 ++ ' ' :: ft.1) ++
        ply_end_header :: vertex_data.map (fun row => joinSep ' ' (row.map ratToChars))))
  else none

/-- Parse the space-separated tokens of one data line. -/
def parse_tokens : List (List Char) → Option (List ℚ)
  | [] => some []
  | t :: ts =>
      match charsToRat t, parse_tokens ts with
      | some v, some vs => some (v :: vs)
      | _, _ => none

/-- Parse one vertex data line: its values, which must be as many as the
declared properties. -/
def parse_ply_row (arity : ℕ) (line : List Char) : Option (List ℚ) :=
  match parse_tokens (splitOnChar ' ' line) with
  | some vals => if vals.length = arity then some vals else none
  | none => none

/-- Parse the vertex data lines. -/
def parse_ply_rows (arity : ℕ) : List (List Char) → Option (List (List ℚ))
  | [] => some []
  | line :: rest =>
      match parse_ply_row arity line, parse_ply_rows arity rest with
      | some r, some rs => some (r :: rs)
      | _, _ => none

/-- After the header: exactly the declared number of data lines. -/
def read_ply_data (n arity : ℕ) (lines : List (List Char)) :
    Option (List (List ℚ)) :=
  if lines.length = n then parse_ply_rows arity lines else none

/-- Scan the header's property declarations up to `end_header`, counting the
vertex attributes. -/
def read_ply_header : ℕ → ℕ → List (List Char) → Option (List (List ℚ))
  | _, _, [] => none
  | n, arity, line :: rest =>
      if line = ply_end_header then read_ply_data n arity rest
      else if line.take 9 = ply_property_head then read_ply_header n (arity + 1) rest
      else none

/-- Modelled from the spec: the `plyfile` decode path used by
`utils.read_ply_web` — `PlyData.read` on the byte stream followed by
`plydata['vertex'].data` flattened to a 2-D array whose attribute order
matches the file's declared vertex property order. -/
def read_ply_web (lines : List (List Char)) : Option (List (List ℚ)) :=
  match lines with
  | l0 :: l1 :: l2 :: rest =>
      if l0 = ply_magic ∧ l1 = ply_format_line ∧ l2.take 15 = ply_element_head then
        read_ply_header (charsToNat (l2.drop 15)) 0 rest
      else none
  | _ => none

lemma parse_tokens_encode (row : List ℚ) :
    parse_tokens (row.map ratToChars) = some row := by
  induction row with
  | nil => rfl
  | cons q qs ih =>
      simp only [List.map_cons, parse_tokens, ratToChars_round q, ih]

lemma parse_ply_row_encode (row : List ℚ) (arity : ℕ) (hrow : row.length = arity)
    (hne : row ≠ []) :
    parse_ply_row arity (joinSep ' ' (row.map ratToChars)) = some row := by
  unfold parse_ply_row
  rw [splitOnChar_joinSep ' ' (row.map ratToChars)
      (by simpa using hne)
      (by
        intro t ht
        obtain ⟨q, _, hqe⟩ := List.mem_map.mp ht
        rw [← hqe]
        exact not_mem_ratToChars ' ' q (Or.inl rfl)),
    parse_tokens_encode row]
  simp [hrow]

lemma parse_ply_rows_encode (rows : List (List ℚ)) (arity : ℕ)
    (harity : ∀ row ∈ rows, row.length = arity) (hne : arity ≠ 0) :
    parse_ply_rows arity (rows.map (fun row => joinSep ' ' (row.map ratToChars))) =
      some rows := by
  induction rows with
  | nil => rfl
  | cons row rest ih =>
      have h1 : row.length = arity := harity row (List.mem_cons_self row rest)
      have h2 : row ≠ [] := by
        intro hcon
        rw [hcon] at h1
        exact hne h1.symm
      simp only [List.map_cons, parse_ply_rows,
        parse_ply_row_encode row arity h1 h2,
        ih (fun r hr => harity r (List.mem_cons_of_mem row hr))]

lemma property_line_ne_end_header (ft : List Char × List Char) :
    ply_property_head ++ ft.2 ++ ' ' :: ft.1 ≠ ply_end_header := by
  intro h
  have h9 : ((ply_property_head ++ ft.2) ++ ' ' :: ft.1).take 9 = ply_end_header.take 9 := by
    rw [h]
  rw [List.append_assoc, show (9 : ℕ) = ply_property_head.length from rfl,
    List.take_left] at h9
  revert h9
  decide

lemma read_ply_header_props (props : List (List Char × List Char)) :
    ∀ (n arity : ℕ) (rest : List (List Char)),
      read_ply_header n arity
          (props.map (fun ft => ply_property_head ++ ft.2 ++ ' ' :: ft.1) ++
            ply_end_header :: rest) =
        read_ply_data n (arity + props.length) rest := by
  induction props with
  | nil =>
      intro n arity rest
      simp [read_ply_header]
  | cons ft fts ih =>
      intro n arity rest
      simp only [List.map_cons, List.cons_append, List.append_eq, read_ply_header]
      rw [if_neg (property_line_ne_end_header ft)]
      have htake : (ply_property_head ++ ft.2 ++ ' ' :: ft.1).take 9 =
          ply_property_head := by
        rw [List.append_assoc, show (9 : ℕ) = ply_property_head.length from rfl,
          List.take_left]
      rw [if_pos htake, ih n (arity + 1) rest]
      congr 1
      simp only [List.length_cons]
      omega

/-- C5: for every list of vertex row tuples and every dtype spec (a non-empty
list of field name/type pairs) whose arity matches every row tuple, encoding
with `write_ply_web` succeeds, and decoding the resulting buffer with
`read_ply_web` gives back exactly the original rows — exact over `ℚ`, hence
within floating-point tolerance. -/
theorem C5_ply_roundtrip :
    ∀ (vertex_data : List (List ℚ)) (dtype_val : List (List Char × List Char))
      (hdt : dtype_val ≠ [])
      (harity : ∀ row ∈ vertex_data, row.length = dtype_val.length),
      ∃ buffer : List (List Char),
        write_ply_web vertex_data dtype_val = some buffer ∧
        read_ply_web buffer = some vertex_data := by
  intro vertex_data dtype_val hdt harity
  have hall : vertex_data.all (fun row => row.length == dtype_val.length) = true := by
    rw [List.all_eq_true]
    intro row hrow
    exact beq_iff_eq.mpr (harity row hrow)
  refine ⟨_, by rw [write_ply_web, if_pos hall], ?_⟩
  simp only [read_ply_web]
  rw [if_pos ⟨trivial, trivial, by
    rw [show (15 : ℕ) = ply_element_head.length from rfl, List.take_left]⟩]
  rw [show (ply_element_head ++ natToChars vertex_data.length).drop 15 =
      natToChars vertex_data.length from by
    rw [show (15 : ℕ) = ply_element_head.length from rfl, List.drop_left],
    natToChars_round, read_ply_header_props dtype_val vertex_data.length 0 _]
  unfold read_ply_data
  rw [if_pos (by rw [List.length_map])]
  rw [parse_ply_rows_encode vertex_data (0 + dtype_val.length)
    (by
      intro row hrow
      rw [harity row hrow]
      omega)
    (by
      intro hcon
      apply hdt
      have : dtype_val.length = 0 := by omega
      exact List.length_eq_zero.mp this)]

/-- Witness for C5 at a concrete input: one row `(1/2, -3, 5)` against the
dtype `[(x, f4), (y, f4), (z, f4)]` encodes and decodes back exactly. -/
theorem C5_ply_roundtrip_witness :
    ∃ buffer : List (List Char),
      write_ply_web [[1/2, -3, 5]]
          [("x".toList, "f4".toList), ("y".toList, "f4".toList), ("z".toList, "f4".toList)] =
        some buffer ∧
      read_ply_web buffer = some [[1/2, -3, 5]] :=
  C5_ply_roundtrip [[1/2, -3, 5]]
    [("x".toList, "f4".toList), ("y".toList, "f4".toList), ("z".toList, "f4".toList)]
    (by simp) (by simp)

/-- Modelled from the spec: the universal-newline translation performed by a
text wrapper opened with the default newline mode, as `read_csv_web` does —
every `\r\n` pair and every lone `\r` in the decoded stream becomes `\n`. -/
def univ_newlines : List Char → List Char
  | [] => []
  | ['\r'] => ['\n']
  | '\r' :: '\n' :: rest => '\n' :: univ_newlines rest
  | '\r' :: c :: rest => '\n' :: univ_newlines (c :: rest)
  | c :: rest => c :: univ_newlines rest

/-- The parsing states of the Python `csv` reader (excel dialect).  The
carriage-return states are unreachable behind the universal-newline
translation, which removes every `\r`, and are therefore not modelled. -/
inductive CsvState where
  | startRecord
  | startField
  | inField
  | inQuoted
  | quoteInQuoted

/-- Modelled from the spec: the Python `csv.reader` state machine (excel
dialect: delimiter `,`, quote `"`, doubled-quote escaping, non-strict), run
over the translated character stream with the current field and the current
record as accumulators.  At end of input a partial record is emitted unless
the machine is between records. -/
def run_csv : List Char → CsvState → List Char → List (List Char) → List (List (List Char))
  | [], st, field, fields =>
      match st with
      | .startRecord => []
      | _ => [fields ++ [field]]
  | c :: rest, .startRecord, _, _ =>
      if c = '\n' then [] :: run_csv rest .startRecord [] []
      else if c = '"' then run_csv rest .inQuoted [] []
      else if c = ',' then run_csv rest .startField [] [[]]
      else run_csv rest .inField [c] []
  | c :: rest, .startField, _, fields =>
      if c = '\n' then (fields ++ [[]]) :: run_csv rest .startRecord [] []
      else if c = '"' then run_csv rest .inQuoted [] fields
      else if c = ',' then run_csv rest .startField [] (fields ++ [[]])
      else run_csv rest .inField [c] fields
  | c :: rest, .inField, field, fields =>
      if c = '\n' then (fields ++ [field]) :: run_csv rest .startRecord [] []
      else if c = ',' then run_csv rest .startField [] (fields ++ [field])
      else run_csv rest .inField (field ++ [c]) fields
  | c :: rest, .inQuoted, field, fields =>
      if c = '"' then run_csv rest .quoteInQuoted field fields
      else run_csv rest .inQuoted (field ++ [c]) fields
  | c :: rest, .quoteInQuoted, field, fields =>
      if c = '"' then run_csv rest .inQuoted (field ++ ['"']) fields
      else if c = ',' then run_csv rest .startField [] (fields ++ [field])
      else if c = '\n' then (fields ++ [field]) :: run_csv rest .startRecord [] []
      else run_csv rest .inField (field ++ [c]) fields

/-- `utils.read_csv_web`: decode the byte stream through a default text
wrapper (universal newlines) and parse it with `csv.reader`. -/
def read_csv_web (grid_bytes : List Char) : List (List (List Char)) :=
  run_csv (univ_newlines grid_bytes) CsvState.startRecord [] []

/-- Modelled from the spec: the Python `csv.writer` quoting test under
`QUOTE_MINIMAL` — a field is quoted when it contains the delimiter, the
quote character, or a character of the `\r\n` line terminator. -/
def needs_quote (f : List Char) : Bool :=
  f.any (fun c => c == ',' || c == '"' || c == '\r' || c == '\n')

/-- Quoted-field body: each quote character is doubled. -/
def escape_field (f : List Char) : List Char :=
  (f.map (fun c => if c = '"' then ['"', '"'] else [c])).flatten

/-- One encoded field: quoted and escaped when quoting is needed, verbatim
otherwise. -/
def encode_field (f : List Char) : List Char :=
  if needs_quote f then '"' :: escape_field f ++ ['"'] else f

/-- Modelled from the spec: one `csv.writer` record: fields joined by the
delimiter; a record made of exactly one empty field is written as an empty
quoted field so it stays distinguishable from an empty record. -/
def encode_row (row : List (List Char)) : List Char :=
  if row = [[]] then ['"', '"'] else joinSep ',' (row.map encode_field)

/-- `utils.write_csv_web`: write every record with the `\r\n` terminator of
the excel dialect into a fresh byte buffer. -/
def write_csv_web (rows : List (List (List Char))) : List Char :=
  (rows.map (fun row => encode_row row ++ ['\r', '\n'])).flatten

lemma mem_joinSep (sep : Char) (c : Char) :
    ∀ (tokens : List (List Char)), c ∈ joinSep sep tokens →
      c = sep ∨ ∃ t ∈ tokens, c ∈ t
  | [], h => by simp [joinSep] at h
  | [t], h => by
      rw [joinSep] at h
      exact Or.inr ⟨t, List.mem_cons_self t [], h⟩
  | t :: t2 :: ts, h => by
      rw [joinSep] at h
      rcases List.mem_append.mp h with h2 | h2
      · exact Or.inr ⟨t, List.mem_cons_self t _, h2⟩
      · rcases List.mem_cons.mp h2 with h3 | h3
        · exact Or.inl h3
        · rcases mem_joinSep sep c (t2 :: ts) h3 with h4 | ⟨u, hu, hcu⟩
          · exact Or.inl h4
          · exact Or.inr ⟨u, List.mem_cons_of_mem t hu, hcu⟩

lemma mem_escape_field (c : Char) (f : List Char) (h : c ∈ escape_field f) :
    c ∈ f ∨ c = '"' := by
  unfold escape_field at h
  rcases List.mem_flatten.mp h with ⟨chunk, hchunk, hc⟩
  obtain ⟨d, hd, hde⟩ := List.mem_map.mp hchunk
  by_cases hq : d = '"'
  · rw [if_pos hq] at hde
    rw [← hde] at hc
    rcases List.mem_cons.mp hc with h2 | h2
    · exact Or.inr h2
    · exact Or.inr (by simpa using h2)
  · rw [if_neg hq] at hde
    rw [← hde] at hc
    have : c = d := by simpa using hc
    exact Or.inl (this ▸ hd)

lemma mem_encode_field (c : Char) (f : List Char) (h : c ∈ encode_field f) :
    c ∈ f ∨ c = '"' := by
  unfold encode_field at h
  by_cases hq : needs_quote f
  · rw [if_pos hq] at h
    rcases List.mem_cons.mp h with h2 | h2
    · exact Or.inr h2
    · rcases List.mem_append.mp h2 with h3 | h3
      · exact mem_escape_field c f h3
      · exact Or.inr (by simpa using h3)
  · rw [if_neg hq] at h
    exact Or.inl h

lemma encode_row_no_cr (row : List (List Char)) (h : ∀ f ∈ row, '\r' ∉ f) :
    '\r' ∉ encode_row row := by
  unfold encode_row
  by_cases hs : row = [[]]
  · rw [if_pos hs]
    decide
  · rw [if_neg hs]
    intro hmem
    rcases mem_joinSep ',' '\r' (row.map encode_field) hmem with h2 | ⟨t, ht, hct⟩
    · simp at h2
    · obtain ⟨f, hf, hfe⟩ := List.mem_map.mp ht
      rw [← hfe] at hct
      rcases mem_encode_field '\r' f hct with h3 | h3
      · exact h f hf h3
      · simp at h3

lemma univ_newlines_ne_cr (c : Char) (rest : List Char) (hc : c ≠ '\r') :
    univ_newlines (c :: rest) = c :: univ_newlines rest := by
  cases rest with
  | nil =>
      unfold univ_newlines
      split <;> simp_all [univ_newlines]
  | cons d rest2 =>
      unfold univ_newlines
      split <;> simp_all [univ_newlines] <;> rw [univ_newlines.eq_def]

lemma univ_newlines_no_cr_crlf (l : List Char) (rest : List Char) (h : '\r' ∉ l) :
    univ_newlines (l ++ '\r' :: '\n' :: rest) = l ++ '\n' :: univ_newlines rest := by
  induction l with
  | nil =>
      show univ_newlines ('\r' :: '\n' :: rest) = '\n' :: univ_newlines rest
      rw [univ_newlines]
  | cons c cs ih =>
      have hc : c ≠ '\r' := fun hcon => h (hcon ▸ List.mem_cons_self c cs)
      have ih2 := ih (fun hcon => h (List.mem_cons_of_mem c hcon))
      simp only [List.cons_append]
      rw [univ_newlines_ne_cr c _ hc, ih2]

/-- The written buffer after universal-newline translation: the same records
terminated by a bare `\n`. -/
def write_csv_lf (rows : List (List (List Char))) : List Char :=
  (rows.map (fun row => encode_row row ++ ['\n'])).flatten

lemma univ_newlines_write (rows : List (List (List Char)))
    (h : ∀ row ∈ rows, ∀ f ∈ row, '\r' ∉ f) :
    univ_newlines (write_csv_web rows) = write_csv_lf rows := by
  induction rows with
  | nil => rfl
  | cons row rest ih =>
      unfold write_csv_web write_csv_lf
      simp only [List.map_cons, List.flatten_cons]
      have hrow : '\r' ∉ encode_row row :=
        encode_row_no_cr row (h row (List.mem_cons_self row rest))
      rw [List.append_assoc, show (['\r', '\n'] : List Char) ++
          (rest.map (fun r => encode_row r ++ ['\r', '\n'])).flatten =
          '\r' :: '\n' :: (rest.map (fun r => encode_row r ++ ['\r', '\n'])).flatten from rfl,
        univ_newlines_no_cr_crlf _ _ hrow,
        show (rest.map (fun r => encode_row r ++ ['\r', '\n'])).flatten =
          write_csv_web rest from rfl,
        ih (fun r hr => h r (List.mem_cons_of_mem row hr)),
        List.append_assoc]
      rfl

lemma not_needs_quote (f : List Char) (h : needs_quote f = false) :
    ∀ c ∈ f, c ≠ ',' ∧ c ≠ '"' ∧ c ≠ '\r' ∧ c ≠ '\n' := by
  intro c hc
  unfold needs_quote at h
  rw [List.any_eq_false] at h
  have h2 := h c hc
  simp at h2
  tauto

lemma run_plain (f : List Char) (h : ∀ c ∈ f, c ≠ ',' ∧ c ≠ '"' ∧ c ≠ '\n') :
    ∀ (acc : List Char) (fields : List (List Char)) (rest : List Char),
      run_csv (f ++ rest) .inField acc fields = run_csv rest .inField (acc ++ f) fields := by
  induction f with
  | nil =>
      intro acc fields rest
      simp
  | cons c cs ih =>
      intro acc fields rest
      have hc := h c (List.mem_cons_self c cs)
      show run_csv (c :: (cs ++ rest)) .inField acc fields = _
      rw [run_csv, if_neg hc.2.2, if_neg hc.1,
        ih (fun d hd => h d (List.mem_cons_of_mem c hd)) (acc ++ [c]) fields rest,
        List.append_assoc]
      rfl

lemma run_escape (f : List Char) :
    ∀ (acc : List Char) (fields : List (List Char)) (rest : List Char),
      run_csv (escape_field f ++ rest) .inQuoted acc fields =
        run_csv rest .inQuoted (acc ++ f) fields := by
  induction f with
  | nil =>
      intro acc fields rest
      simp [escape_field]
  | cons c cs ih =>
      intro acc fields rest
      have hcs : escape_field (c :: cs) =
          (if c = '"' then ['"', '"'] else [c]) ++ escape_field cs := by
        simp [escape_field]
      rw [hcs]
      by_cases hq : c = '"'
      · subst hq
        rw [if_pos rfl]
        show run_csv ('"' :: ('"' :: (escape_field cs ++ rest))) .inQuoted acc fields = _
        rw [run_csv, if_pos rfl, run_csv, if_pos rfl, ih (acc ++ ['"']) fields rest,
          List.append_assoc]
        rfl
      · rw [if_neg hq]
        show run_csv (c :: (escape_field cs ++ rest)) .inQuoted acc fields = _
        rw [run_csv, if_neg hq, ih (acc ++ [c]) fields rest, List.append_assoc]
        rfl

lemma run_field_comma (f : List Char) (fields : List (List Char)) (rest : List Char) :
    run_csv (encode_field f ++ ',' :: rest) .startField [] fields =
      run_csv rest .startField [] (fields ++ [f]) := by
  unfold encode_field
  by_cases hq : needs_quote f
  · rw [if_pos hq]
    rw [List.append_assoc, List.cons_append, List.singleton_append]
    rw [run_csv, if_neg (by decide : ¬('"' : Char) = '\n'), if_pos rfl,
      run_escape f [] fields ('"' :: ',' :: rest), List.nil_append,
      run_csv, if_pos rfl, run_csv, if_neg (by decide : ¬(',' : Char) = '"'), if_pos rfl]
  · rw [if_neg hq]
    have hch := not_needs_quote f (by simpa using hq)
    cases f with
    | nil =>
        show run_csv (',' :: rest) .startField [] fields = _
        rw [run_csv, if_neg (by decide : ¬(',' : Char) = '\n'),
          if_neg (by decide : ¬(',' : Char) = '"'), if_pos rfl]
    | cons c cs =>
        have hc := hch c (List.mem_cons_self c cs)
        show run_csv (c :: (cs ++ ',' :: rest)) .startField [] fields = _
        rw [run_csv, if_neg hc.2.2.2, if_neg hc.2.1, if_neg hc.1,
          run_plain cs (fun d hd =>
            (fun hh => ⟨hh.1, hh.2.1, hh.2.2.2⟩) (hch d (List.mem_cons_of_mem c hd)))
            [c] fields (',' :: rest),
          run_csv, if_neg (by decide : ¬(',' : Char) = '\n'), if_pos rfl]
        rfl

lemma run_field_newline (f : List Char) (fields : List (List Char)) (rest : List Char) :
    run_csv (encode_field f ++ '\n' :: rest) .startField [] fields =
      (fields ++ [f]) :: run_csv rest .startRecord [] [] := by
  unfold encode_field
  by_cases hq : needs_quote f
  · rw [if_pos hq]
    rw [List.append_assoc, List.cons_append, List.singleton_append]
    rw [run_csv, if_neg (by decide : ¬('"' : Char) = '\n'), if_pos rfl,
      run_escape f [] fields ('"' :: '\n' :: rest), List.nil_append,
      run_csv, if_pos rfl, run_csv, if_neg (by decide : ¬('\n' : Char) = '"'),
      if_neg (by decide : ¬('\n' : Char) = ','), if_pos rfl]
  · rw [if_neg hq]
    have hch := not_needs_quote f (by simpa using hq)
    cases f with
    | nil =>
        show run_csv ('\n' :: rest) .startField [] fields = _
        rw [run_csv, if_pos rfl]
    | cons c cs =>
        have hc := hch c (List.mem_cons_self c cs)
        show run_csv (c :: (cs ++ '\n' :: rest)) .startField [] fields = _
        rw [run_csv, if_neg hc.2.2.2, if_neg hc.2.1, if_neg hc.1,
          run_plain cs (fun d hd =>
            (fun hh => ⟨hh.1, hh.2.1, hh.2.2.2⟩) (hch d (List.mem_cons_of_mem c hd)))
            [c] fields ('\n' :: rest),
          run_csv, if_pos rfl]
        rfl

lemma run_fields : ∀ (flds : List (List Char)), flds ≠ [] →
    ∀ (fields : List (List Char)) (rest : List Char),
      run_csv (joinSep ',' (flds.map encode_field) ++ '\n' :: rest) .startField [] fields =
        (fields ++ flds) :: run_csv rest .startRecord [] []
  | [], h, _, _ => absurd rfl h
  | [f], _, fields, rest => by
      rw [List.map_cons, List.map_nil, joinSep, run_field_newline f fields rest]
  | f :: f2 :: fs, _, fields, rest => by
      rw [List.map_cons, List.map_cons, joinSep, ← List.map_cons,
        List.append_assoc, List.cons_append, run_field_comma f (fields) _,
        run_fields (f2 :: fs) (by simp) (fields ++ [f]) rest, List.append_assoc]
      rfl

lemma run_sr_eq_sf (c : Char) (rest : List Char) (hc : c ≠ '\n') :
    run_csv (c :: rest) .startRecord [] [] = run_csv (c :: rest) .startField [] [] := by
  rw [run_csv, run_csv, if_neg hc, if_neg hc]
  rfl

lemma encode_row_head (row : List (List Char)) (hne : row ≠ []) (hs : row ≠ [[]]) :
    ∃ c cs, joinSep ',' (row.map encode_field) = c :: cs ∧ c ≠ '\n' := by
  match row, hne, hs with
  | [f], _, hs =>
      rw [List.map_cons, List.map_nil, joinSep]
      have hf : f ≠ [] := by
        intro h
        exact hs (by rw [h])
      by_cases hq : needs_quote f
      · refine ⟨'"', escape_field f ++ ['"'], ?_, by decide⟩
        rw [encode_field, if_pos hq, List.cons_append]
      · cases f with
        | nil => exact absurd rfl hf
        | cons c cs =>
            have hc := not_needs_quote (c :: cs) (by simpa using hq) c
              (List.mem_cons_self c cs)
            exact ⟨c, cs, by rw [encode_field, if_neg hq], hc.2.2.2⟩
  | f :: f2 :: fs, _, _ =>
      rw [List.map_cons, List.map_cons, joinSep]
      by_cases hq : needs_quote f
      · refine ⟨'"', escape_field f ++ (['"'] ++
          ',' :: joinSep ',' (encode_field f2 :: List.map encode_field fs)), ?_, by decide⟩
        rw [encode_field, if_pos hq, List.append_assoc, List.cons_append]
      · cases f with
        | nil =>
            refine ⟨',', joinSep ',' (encode_field f2 :: List.map encode_field fs),
              ?_, by decide⟩
            rw [encode_field, if_neg hq, List.nil_append]
        | cons c cs =>
            have hc := not_needs_quote (c :: cs) (by simpa using hq) c
              (List.mem_cons_self c cs)
            refine ⟨c, cs ++ ',' :: joinSep ',' (encode_field f2 :: List.map encode_field fs),
              ?_, hc.2.2.2⟩
            rw [encode_field, if_neg hq, List.cons_append]

lemma run_row (row : List (List Char)) (rest : List Char) :
    run_csv (encode_row row ++ '\n' :: rest) .startRecord [] [] =
      row :: run_csv rest .startRecord [] [] := by
  by_cases hs : row = [[]]
  · subst hs
    rw [encode_row, if_pos rfl]
    show run_csv ('"' :: '"' :: '\n' :: rest) .startRecord [] [] = _
    rw [run_csv, if_neg (by decide : ¬('"' : Char) = '\n'), if_pos rfl,
      run_csv, if_pos rfl, run_csv,
      if_neg (by decide : ¬('\n' : Char) = '"'),
      if_neg (by decide : ¬('\n' : Char) = ','), if_pos rfl]
    rfl
  · rw [encode_row, if_neg hs]
    by_cases hne : row = []
    · subst hne
      show run_csv ('\n' :: rest) .startRecord [] [] = _
      rw [run_csv, if_pos rfl]
    · obtain ⟨c, cs, hj, hc⟩ := encode_row_head row hne hs
      rw [hj, List.cons_append, run_sr_eq_sf c _ hc, ← List.cons_append, ← hj,
        run_fields row hne [] rest, List.nil_append]

lemma run_rows (rows : List (List (List Char))) :
    run_csv (write_csv_lf rows) .startRecord [] [] = rows := by
  induction rows with
  | nil => rfl
  | cons row rest ih =>
      unfold write_csv_lf
      simp only [List.map_cons, List.flatten_cons]
      rw [List.append_assoc, List.singleton_append, run_row row _]
      congr 1

/-- C4 (amended): for a rectangular list-of-lists whose cells contain no
carriage return, encoding with `write_csv_web` and decoding with
`read_csv_web` gives back the original rows exactly, string for string. -/
theorem C4_csv_roundtrip :
    ∀ (rows : List (List (List Char))),
      (∃ ncols, ∀ row ∈ rows, row.length = ncols) →
      (∀ row ∈ rows, ∀ f ∈ row, '\r' ∉ f) →
      read_csv_web (write_csv_web rows) = rows := by
  intro rows _ hcr
  unfold read_csv_web
  rw [univ_newlines_write rows hcr, run_rows rows]

/-- Witness for C4 at a concrete input: a 2×2 table with an empty cell, a
quoted comma and a quoted quote round-trips exactly. -/
theorem C4_csv_roundtrip_witness :
    read_csv_web (write_csv_web [[['a'], ['b', ',']], [[], ['"']]]) =
      [[['a'], ['b', ',']], [[], ['"']]] :=
  C4_csv_roundtrip [[['a'], ['b', ',']], [[], ['"']]]
    ⟨2, by decide⟩ (by decide)

/-- C4 counterexample: the round trip is not exact for every rectangular
input — a cell containing a carriage return comes back with a line feed
instead, because `read_csv_web` decodes through a text wrapper in universal
newline mode. -/
theorem C4_csv_roundtrip_cr_lost :
    read_csv_web (write_csv_web [[['a', '\r', 'b']]]) = [[['a', '\n', 'b']]] ∧
    read_csv_web (write_csv_web [[['a', '\r', 'b']]]) ≠ [[['a', '\r', 'b']]] := by
  constructor
  · decide
  · decide
